import Mathlib

/-!
A shallow embedding of the `jellyset` Go package (src/jellyset.go): a
Redis-like keyed set store.  Go's `map[interface{}]struct{}` sets are
modelled as duplicate-free lists whose order stands for one admissible
map-iteration order; the `map[string]set` record table is modelled as an
association list keyed by `String`.  Operations that can panic in Go
(the defective `set.list()` writes through an index of a zero-length
slice) return `Option`, with `none` marking the panic.
-/

set_option linter.unusedSectionVars false
set_option linter.unusedVariables false

namespace Jellyset

/-- Go `set = map[interface{}]struct{}`: the list of its keys in iteration
order.  Well-formed values are duplicate-free. -/
abbrev GoSet (V : Type) := List V

/-- Go `Set.records : map[string]set` as an association list in insertion
order.  Well-formed values have duplicate-free key lists. -/
abbrev Store (V : Type) := List (String × GoSet V)

variable {V : Type} [DecidableEq V]

/-- Go map write `s[item] = keyExists`: a no-op when the key is present,
otherwise the key is appended to the iteration order. -/
def setInsert (s : GoSet V) (x : V) : GoSet V :=
  if x ∈ s then s else s ++ [x]

/-- Go map read `s.records[key]` returning the `(value, ok)` pair's value. -/
def lookupRec (st : Store V) (k : String) : Option (GoSet V) :=
  match st with
  | [] => none
  | (k', s) :: rest => if k' = k then some s else lookupRec rest k

/-- Go `(s *Set) exists(key)`: the `ok` of the map read. -/
def existsKey (st : Store V) (k : String) : Bool :=
  (lookupRec st k).isSome

/-- Go map read `s.records[key]` used directly: a missing key reads as the
nil map, which iterates as empty. -/
def getRec (st : Store V) (k : String) : GoSet V :=
  (lookupRec st k).getD []

/-- Go map write `s.records[key] = v`: replaces in place, or appends a new
entry at the end of the iteration order. -/
def updateRec (st : Store V) (k : String) (s : GoSet V) : Store V :=
  match st with
  | [] => [(k, s)]
  | (k', s') :: rest => if k' = k then (k, s) :: rest else (k', s') :: updateRec rest k s

/-- Well-formedness delivered by Go's map semantics: record keys are
distinct and every stored set is duplicate-free. -/
def WFStore (st : Store V) : Prop :=
  (st.map Prod.fst).Nodup ∧ ∀ p ∈ st, (Prod.snd p).Nodup

instance (st : Store V) : Decidable (WFStore st) := by
  unfold WFStore; infer_instance

/-- The member loop of `Set.SAdd`: adds each absent member and counts it. -/
def sAddLoop (s : GoSet V) (members : List V) (added : Nat) : GoSet V × Nat :=
  match members with
  | [] => (s, added)
  | m :: rest =>
    if m ∈ s then sAddLoop s rest added
    else sAddLoop (s ++ [m]) rest (added + 1)

/-- Go `Set.SAdd(key, members...)`: lazily creates the key's set, adds the
members, returns the number genuinely inserted (paired with the new store). -/
def SAdd (st : Store V) (key : String) (members : List V) : Nat × Store V :=
  let st1 := if existsKey st key then st else updateRec st key []
  let p := sAddLoop (getRec st1 key) members 0
  (p.2, updateRec st1 key p.1)

/-- The pop loop of `Set.SPop`: writes each popped element over the
`i`-th slot of the pre-allocated slice, deletes it from the set, and
breaks once `i` reaches `count`.  Returns the slice and the survivors. -/
def sPopLoop (pending : List V) (members : List (Option V)) (i count : Nat) :
    List (Option V) × List V :=
  match pending with
  | [] => (members, [])
  | k :: rest =>
    let members' := members.set i (some k)
    if i + 1 = count then (members', rest)
    else sPopLoop rest members' (i + 1) count

/-- Go `Set.SPop(key, count)`: empty slice when the key is absent or
`count <= 0`; otherwise a slice of length `count` pre-filled with Go's
`nil` (modelled `none`) and overwritten with up to `count` popped
elements.  Returns the slice and the updated store. -/
def SPop (st : Store V) (key : String) (count : Int) : List (Option V) × Store V :=
  if existsKey st key = false ∨ count ≤ 0 then ([], st)
  else
    let s := getRec st key
    let n := count.toNat
    let p := sPopLoop s (List.replicate n none) 0 n
    (p.1, updateRec st key p.2)

/-- Go `Set.SRem(key, member)`. -/
def SRem (st : Store V) (key : String) (member : V) : Bool × Store V :=
  if existsKey st key = false then (false, st)
  else
    let s := getRec st key
    if member ∈ s then (true, updateRec st key (s.erase member))
    else (false, st)

/-- Go `(s *Set) fieldExists(key, member)`. -/
def fieldExists (st : Store V) (key : String) (member : V) : Bool :=
  existsKey st key && decide (member ∈ getRec st key)

/-- Go `Set.SMove(src, dest, member)`: the source delete happens before the
destination insert, so a self-move removes and then restores the member. -/
def SMove (st : Store V) (src dest : String) (member : V) : Bool × Store V :=
  if fieldExists st src member = false then (false, st)
  else
    let st1 := if existsKey st dest then st else updateRec st dest []
    let st2 := updateRec st1 src ((getRec st1 src).erase member)
    let st3 := updateRec st2 dest (setInsert (getRec st2 dest) member)
    (true, st3)

/-- Go `Set.SCard(key)`. -/
def SCard (st : Store V) (key : String) : Nat :=
  if existsKey st key = false then 0 else (getRec st key).length

/-- Go `Set.SIsMember(key, member)`. -/
def SIsMember (st : Store V) (key : String) (member : V) : Bool :=
  if existsKey st key = false then false else decide (member ∈ getRec st key)

/-- Go `Set.SKeyExists(key)`. -/
def SKeyExists (st : Store V) (key : String) : Bool :=
  existsKey st key

/-- The loop of the package's `set.list()`: the slice is created with
length 0 (`make([]interface{}, 0, len(s))`) and each iteration assigns
through `list[i]`; an index at or past the length is a Go runtime panic,
modelled as `none`. -/
def listLoop (pending : List V) (acc : List V) (i : Nat) : Option (List V) :=
  match pending with
  | [] => some acc
  | item :: rest =>
    if i < acc.length then listLoop rest (acc.set i item) (i + 1)
    else none

/-- Go `set.list()` as written in src/jellyset.go (lines 657-668). -/
def listGo (s : GoSet V) : Option (List V) :=
  listLoop s [] 0

/-- Go `for member := range set { unionSet[member] = keyExists }`. -/
def insertAll (acc s : GoSet V) : GoSet V :=
  s.foldl setInsert acc

/-- The accumulation loop of `Set.SUnion`: keys absent from the store are
silently skipped. -/
def unionLoop (st : Store V) (keys : List String) (acc : GoSet V) : GoSet V :=
  match keys with
  | [] => acc
  | k :: rest =>
    if existsKey st k then unionLoop st rest (insertAll acc (getRec st k))
    else unionLoop st rest acc

/-- The contents of `unionSet` just before `Set.SUnion` calls `list()`. -/
def sUnionMembers (st : Store V) (keys : List String) : GoSet V :=
  unionLoop st keys []

/-- Go `Set.SUnion(keys...)`: delegates the final enumeration to the
defective `list()`, so a non-empty union is a panic (`none`). -/
def SUnion (st : Store V) (keys : List String) : Option (List V) :=
  match keys with
  | [] => some []
  | _ => listGo (sUnionMembers st keys)

/-- Go `Set.SUnionStore(storeKey, keys...)`: re-adds every union element
under `storeKey` and reports the union length, not SAdd's counts. -/
def SUnionStore (st : Store V) (storeKey : String) (keys : List String) :
    Option (Nat × Store V) :=
  match SUnion st keys with
  | none => none
  | some u => some (u.length, u.foldl (fun acc x => (SAdd acc storeKey [x]).2) st)

/-- The `excludeMap` loop of `Set.SDiff`: every key different from
`keys[0]` must exist (`none` models the early empty return), and its
elements join the exclusion set; keys equal to `keys[0]` are skipped. -/
def excludeLoop (st : Store V) (ks : List String) (k0 : String) (acc : GoSet V) :
    Option (GoSet V) :=
  match ks with
  | [] => some acc
  | k :: rest =>
    if k = k0 then excludeLoop st rest k0 acc
    else
      match lookupRec st k with
      | none => none
      | some s => excludeLoop st rest k0 (insertAll acc s)

/-- Go `Set.SDiff(keys...)`: the one-key path uses the defective `list()`
(`none` = panic); with two or more keys a missing subtrahend yields the
empty sequence, otherwise the first set is filtered by the exclusion set. -/
def SDiff (st : Store V) (keys : List String) : Option (List V) :=
  match keys with
  | [] => some []
  | [k] => if existsKey st k then listGo (getRec st k) else some []
  | k0 :: _ :: _ =>
    match excludeLoop st keys k0 [] with
    | none => some []
    | some excl => some ((getRec st k0).filter (fun item => decide (item ∉ excl)))

/-- Go `Set.SDiffStore(storeKey, keys...)`. -/
def SDiffStore (st : Store V) (storeKey : String) (keys : List String) :
    Option (Nat × Store V) :=
  match SDiff st keys with
  | none => none
  | some d => some (d.length, d.foldl (fun acc x => (SAdd acc storeKey [x]).2) st)

/-- The smallest-set scan of `Set.SInter`: `none` models the early empty
return on a missing key; the running best starts as `math.MaxInt`
(modelled as no candidate yet). -/
def smallestLoop (st : Store V) (ks : List String)
    (best : Option (String × GoSet V)) : Option (Option (String × GoSet V)) :=
  match ks with
  | [] => some best
  | k :: rest =>
    match lookupRec st k with
    | none => none
    | some s =>
      match best with
      | none => smallestLoop st rest (some (k, s))
      | some (bk, bs) =>
        if s.length < bs.length then smallestLoop st rest (some (k, s))
        else smallestLoop st rest (some (bk, bs))

/-- The filtering pass of `Set.SInter`: every key different from the
smallest key prunes `inAllSets` down to the members it also holds. -/
def interFilterLoop (st : Store V) (smKey : String) (ks : List String)
    (inAll : GoSet V) : Option (GoSet V) :=
  match ks with
  | [] => some inAll
  | k :: rest =>
    if k = smKey then interFilterLoop st smKey rest inAll
    else
      match lookupRec st k with
      | none => none
      | some nextSet =>
        interFilterLoop st smKey rest (inAll.filter (fun item => decide (item ∈ nextSet)))

/-- Go `Set.SInter(keys...)`: the one-key path uses the defective `list()`;
with two or more keys any missing key yields the empty sequence, otherwise
the smallest set is copied into `inAllSets` and filtered by every other key. -/
def SInter (st : Store V) (keys : List String) : Option (List V) :=
  match keys with
  | [] => some []
  | [k] => if existsKey st k then listGo (getRec st k) else some []
  | _ :: _ :: _ =>
    match smallestLoop st keys none with
    | none => some []
    | some best =>
      match best with
      | none => some []
      | some (smKey, smSet) =>
        match interFilterLoop st smKey keys (insertAll [] smSet) with
        | none => some []
        | some inAll => some inAll

/-- Go `Set.SInterStore(storeKey, keys...)`. -/
def SInterStore (st : Store V) (storeKey : String) (keys : List String) :
    Option (Nat × Store V) :=
  match SInter st keys with
  | none => none
  | some i => some (i.length, i.foldl (fun acc x => (SAdd acc storeKey [x]).2) st)

/-- Modelled from the claim's words (C3): an element of SDiff's stated
result is present in the first key's set and absent from every later
key's set (the union of all other keys' sets, read positionally). -/
def sdiffClaimMem (st : Store V) (keys : List String) (v : V) : Prop :=
  v ∈ getRec st keys.headI ∧ ∀ k ∈ keys.tail, v ∉ getRec st k

instance (st : Store V) (keys : List String) (v : V) :
    Decidable (sdiffClaimMem st keys v) := by
  unfold sdiffClaimMem; infer_instance

/-- Modelled from the spec's words (C5): the naive intersection —
membership in every listed key's set. -/
def naiveInterMem (st : Store V) (keys : List String) (v : V) : Prop :=
  ∀ k ∈ keys, v ∈ getRec st k

theorem lookup_update_self (st : Store V) (k : String) (s : GoSet V) :
    lookupRec (updateRec st k s) k = some s := by
  induction st with
  | nil => simp [updateRec, lookupRec]
  | cons p rest ih =>
    obtain ⟨k', s'⟩ := p
    by_cases h : k' = k <;> simp [updateRec, lookupRec, h, ih]

theorem lookup_update_ne (st : Store V) (k k'' : String) (s : GoSet V)
    (h : k'' ≠ k) : lookupRec (updateRec st k s) k'' = lookupRec st k'' := by
  induction st with
  | nil => simp [updateRec, lookupRec, Ne.symm h]
  | cons p rest ih =>
    obtain ⟨k', s'⟩ := p
    by_cases hk : k' = k
    · subst hk
      simp [updateRec, lookupRec, Ne.symm h]
    · simp [updateRec, lookupRec, hk, ih]

theorem getRec_update_self (st : Store V) (k : String) (s : GoSet V) :
    getRec (updateRec st k s) k = s := by
  simp [getRec, lookup_update_self]

theorem getRec_update_ne (st : Store V) (k k'' : String) (s : GoSet V)
    (h : k'' ≠ k) : getRec (updateRec st k s) k'' = getRec st k'' := by
  simp [getRec, lookup_update_ne st k k'' s h]

theorem existsKey_update_self (st : Store V) (k : String) (s : GoSet V) :
    existsKey (updateRec st k s) k = true := by
  simp [existsKey, lookup_update_self]

theorem existsKey_update_ne (st : Store V) (k k'' : String) (s : GoSet V)
    (h : k'' ≠ k) : existsKey (updateRec st k s) k'' = existsKey st k'' := by
  simp [existsKey, lookup_update_ne st k k'' s h]

theorem lookup_mem (st : Store V) (k : String) (s : GoSet V)
    (h : lookupRec st k = some s) : (k, s) ∈ st := by
  induction st with
  | nil => simp [lookupRec] at h
  | cons p rest ih =>
    obtain ⟨k', s'⟩ := p
    by_cases hk : k' = k
    · subst hk
      simp [lookupRec] at h
      simp [h]
    · simp [lookupRec, hk] at h
      exact List.mem_cons_of_mem _ (ih h)

theorem getRec_nodup (st : Store V) (k : String) (h : WFStore st) :
    (getRec st k).Nodup := by
  unfold getRec
  cases hl : lookupRec st k with
  | none => simp
  | some s =>
    have := h.2 (k, s) (lookup_mem st k s hl)
    simpa using this

theorem existsKey_true_iff (st : Store V) (k : String) :
    existsKey st k = true ↔ lookupRec st k ≠ none := by
  simp [existsKey, Option.isSome_iff_ne_none]

theorem existsKey_false_iff (st : Store V) (k : String) :
    existsKey st k = false ↔ lookupRec st k = none := by
  cases h : lookupRec st k <;> simp [existsKey, h]

theorem getRec_eq_of_lookup (st : Store V) (k : String) (s : GoSet V)
    (h : lookupRec st k = some s) : getRec st k = s := by
  simp [getRec, h]

theorem mem_sAddLoop (ms : List V) (s : GoSet V) (a : Nat) (v : V) :
    v ∈ (sAddLoop s ms a).1 ↔ v ∈ s ∨ v ∈ ms := by
  induction ms generalizing s a with
  | nil => simp [sAddLoop]
  | cons m rest ih =>
    by_cases h : m ∈ s
    · rw [sAddLoop]
      simp only [if_pos h, ih, List.mem_cons]
      constructor
      · rintro (hv | hv)
        · exact Or.inl hv
        · exact Or.inr (Or.inr hv)
      · rintro (hv | rfl | hv)
        · exact Or.inl hv
        · exact Or.inl h
        · exact Or.inr hv
    · rw [sAddLoop]
      simp only [if_neg h, ih, List.mem_append, List.mem_singleton, List.mem_cons]
      tauto

theorem card_insert_erase (X : Finset V) (m : V) :
    (insert m X).card = (X.erase m).card + 1 := by
  by_cases h : m ∈ X
  · rw [Finset.insert_eq_self.mpr h, ← Finset.card_erase_add_one h]
  · rw [Finset.card_insert_of_not_mem h, Finset.erase_eq_of_not_mem h]

theorem sAddLoop_count (ms : List V) (s : GoSet V) (a : Nat) :
    (sAddLoop s ms a).2 = a + (ms.toFinset \ s.toFinset).card := by
  induction ms generalizing s a with
  | nil => simp [sAddLoop]
  | cons m rest ih =>
    by_cases h : m ∈ s
    · rw [sAddLoop]
      simp only [if_pos h, ih]
      congr 1
      rw [List.toFinset_cons, Finset.insert_sdiff_of_mem _ (by simpa using h)]
    · rw [sAddLoop]
      simp only [if_neg h, ih]
      have h1 : (s ++ [m]).toFinset = insert m s.toFinset := by
        rw [List.toFinset_append]
        simp [Finset.union_comm, Finset.insert_eq]
      rw [h1, Finset.sdiff_insert, List.toFinset_cons,
        Finset.insert_sdiff_of_not_mem _ (by simpa using h), card_insert_erase]
      omega

theorem sAddLoop_length (ms : List V) (s : GoSet V) (a : Nat) :
    (sAddLoop s ms a).1.length + a = s.length + (sAddLoop s ms a).2 := by
  induction ms generalizing s a with
  | nil => simp [sAddLoop]
  | cons m rest ih =>
    by_cases h : m ∈ s
    · rw [sAddLoop]
      simp only [if_pos h]
      exact ih s a
    · rw [sAddLoop]
      simp only [if_neg h]
      have := ih (s ++ [m]) (a + 1)
      simp only [List.length_append, List.length_singleton] at this
      omega

theorem getRec_sAdd_base (st : Store V) (key : String) :
    getRec (if existsKey st key then st else updateRec st key []) key
      = getRec st key := by
  by_cases h : existsKey st key = true
  · simp [h]
  · have hf : existsKey st key = false := by simpa using h
    have hl : lookupRec st key = none := (existsKey_false_iff st key).mp hf
    simp only [hf, Bool.false_eq_true, if_false]
    rw [getRec_update_self]
    simp [getRec, hl]

theorem existsKey_sAdd_self (st : Store V) (key : String) (ms : List V) :
    existsKey (SAdd st key ms).2 key = true := by
  unfold SAdd
  exact existsKey_update_self _ key _

theorem getRec_sAdd_self (st : Store V) (key : String) (ms : List V) :
    getRec (SAdd st key ms).2 key = (sAddLoop (getRec st key) ms 0).1 := by
  unfold SAdd
  rw [getRec_update_self, getRec_sAdd_base]

/-- C9: `SAdd(key, members...)` returns the number of supplied members
that were not already present in the key's set (the genuinely inserted
ones, counted as distinct values), the key's cardinality grows by exactly
that count, and an immediately repeated `SAdd` of the same member returns
count 0 and leaves the cardinality unchanged. -/
theorem claim_C9 (st : Store V) (key : String) (ms : List V) (x : V) :
    (SAdd st key ms).1 = (ms.toFinset \ (getRec st key).toFinset).card
    ∧ SCard (SAdd st key ms).2 key = SCard st key + (SAdd st key ms).1
    ∧ (SAdd (SAdd st key [x]).2 key [x]).1 = 0
    ∧ SCard (SAdd (SAdd st key [x]).2 key [x]).2 key
        = SCard (SAdd st key [x]).2 key := by
  have hcount : ∀ ms' : List V, (SAdd st key ms').1
      = (ms'.toFinset \ (getRec st key).toFinset).card := by
    intro ms'
    show (sAddLoop (getRec (if existsKey st key then st
        else updateRec st key []) key) ms' 0).2 = _
    rw [getRec_sAdd_base, sAddLoop_count, Nat.zero_add]
  have hscard0 : SCard st key = (getRec st key).length := by
    by_cases h : existsKey st key
    · simp [SCard, h]
    · have hl : lookupRec st key = none :=
        (existsKey_false_iff st key).mp (by simpa using h)
      simp [SCard, h, getRec, hl]
  have hgrow : ∀ ms' : List V,
      SCard (SAdd st key ms').2 key = SCard st key + (SAdd st key ms').1 := by
    intro ms'
    have hlen := sAddLoop_length ms' (getRec st key) 0
    have hex := existsKey_sAdd_self st key ms'
    have hget := getRec_sAdd_self st key ms'
    show (if existsKey (SAdd st key ms').2 key = false then 0
        else (getRec (SAdd st key ms').2 key).length) = _
    rw [hex, hget, hscard0]
    show (sAddLoop (getRec st key) ms' 0).1.length = _
    have : (SAdd st key ms').1 = (sAddLoop (getRec (if existsKey st key then st
        else updateRec st key []) key) ms' 0).2 := rfl
    rw [this, getRec_sAdd_base]
    simp only [Nat.add_zero] at hlen
    omega
  refine ⟨hcount ms, hgrow ms, ?_, ?_⟩
  · have hx : x ∈ getRec (SAdd st key [x]).2 key := by
      rw [getRec_sAdd_self]
      rw [mem_sAddLoop]
      exact Or.inr (List.mem_singleton_self x)
    show (sAddLoop (getRec (if existsKey (SAdd st key [x]).2 key
        then (SAdd st key [x]).2
        else updateRec (SAdd st key [x]).2 key []) key) [x] 0).2 = 0
    rw [getRec_sAdd_base]
    rw [sAddLoop]
    simp [hx, sAddLoop]
  · have hx : x ∈ getRec (SAdd st key [x]).2 key := by
      rw [getRec_sAdd_self, mem_sAddLoop]
      exact Or.inr (List.mem_singleton_self x)
    have hex1 := existsKey_sAdd_self st key [x]
    have hex2 := existsKey_sAdd_self (SAdd st key [x]).2 key [x]
    have hget2 := getRec_sAdd_self (SAdd st key [x]).2 key [x]
    show (if existsKey (SAdd (SAdd st key [x]).2 key [x]).2 key = false then 0
        else (getRec (SAdd (SAdd st key [x]).2 key [x]).2 key).length) = _
    rw [hex2, hget2]
    have hloop : sAddLoop (getRec (SAdd st key [x]).2 key) [x] 0
        = (getRec (SAdd st key [x]).2 key, 0) := by
      rw [sAddLoop]
      simp [hx, sAddLoop]
    rw [hloop]
    simp [SCard, hex1]

/-- C7: on a fresh store no key exists; `SAdd` of a previously absent key
with zero members creates it as an existing empty set (`SKeyExists` true,
`SCard` 0); and neither `SRem` nor `SPop` ever deletes an existing key —
emptiness never removes a key from the store. -/
theorem claim_C7 (st : Store V) (k : String) (m : V) (c : Int) :
    existsKey ([] : Store V) k = false
    ∧ (existsKey st k = false →
        existsKey (SAdd st k []).2 k = true ∧ SCard (SAdd st k []).2 k = 0)
    ∧ (existsKey st k = true →
        existsKey (SRem st k m).2 k = true ∧ existsKey (SPop st k c).2 k = true) := by
  refine ⟨rfl, ?_, ?_⟩
  · intro h
    refine ⟨existsKey_sAdd_self st k [], ?_⟩
    have hget := getRec_sAdd_self st k []
    rw [sAddLoop] at hget
    have hl : lookupRec st k = none := (existsKey_false_iff st k).mp h
    have hg0 : getRec st k = [] := by simp [getRec, hl]
    simp [SCard, existsKey_sAdd_self st k [], hget, hg0]
  · intro h
    refine ⟨?_, ?_⟩
    · unfold SRem
      rw [h]
      by_cases hmem : m ∈ getRec st k
      · simp [hmem, existsKey_update_self]
      · simp [hmem, h]
    · unfold SPop
      rw [h]
      by_cases hc : c ≤ 0
      · simp [hc, h]
      · simp [hc, existsKey_update_self]

/-- Closed witness for C7 at a concrete store: the two hypothetical
branches are discharged at key `k` (absent) and key `j` (present). -/
theorem claim_C7_witness :
    existsKey ([] : Store String) "k" = false
    ∧ existsKey (SAdd ([("j", ["x"])] : Store String) "k" []).2 "k" = true
    ∧ SCard (SAdd ([("j", ["x"])] : Store String) "k" []).2 "k" = 0
    ∧ existsKey (SRem ([("j", ["x"])] : Store String) "j" "x").2 "j" = true
    ∧ existsKey (SPop ([("j", ["x"])] : Store String) "j" 2).2 "j" = true := by
  have h1 := claim_C7 ([("j", ["x"])] : Store String) "k" "x" 2
  have h2 := claim_C7 ([("j", ["x"])] : Store String) "j" "x" 2
  exact ⟨h1.1, (h1.2.1 (by decide)).1, (h1.2.1 (by decide)).2,
    (h2.2.2 (by decide)).1, (h2.2.2 (by decide)).2⟩

/-- C8: a self-move of a present member (`SMove(s, s, x)` with `x` in
`s`'s set) returns true and leaves every observation of the store
unchanged: key existence, cardinality, and membership of every key. -/
theorem claim_C8 (st : Store V) (k : String) (x : V) (hWF : WFStore st)
    (hx : x ∈ getRec st k) :
    (SMove st k k x).1 = true
    ∧ ∀ k' : String,
        existsKey (SMove st k k x).2 k' = existsKey st k'
        ∧ SCard (SMove st k k x).2 k' = SCard st k'
        ∧ ∀ v : V, SIsMember (SMove st k k x).2 k' v = SIsMember st k' v := by
  have hex : existsKey st k = true := by
    rcases hl : lookupRec st k with _ | s
    · rw [getRec, hl] at hx
      simp at hx
    · simp [existsKey, hl]
  have hfe : fieldExists st k x = true := by
    simp [fieldExists, hex, hx]
  have hnd : (getRec st k).Nodup := getRec_nodup st k hWF
  have hg2 : getRec (updateRec st k ((getRec st k).erase x)) k
      = (getRec st k).erase x := getRec_update_self _ _ _
  have hxe : x ∉ (getRec st k).erase x := by
    intro hmem
    exact ((List.Nodup.mem_erase_iff hnd).mp hmem).1 rfl
  have hmove : SMove st k k x
      = (true, updateRec (updateRec st k ((getRec st k).erase x)) k
          ((getRec st k).erase x ++ [x])) := by
    unfold SMove
    rw [hfe]
    simp only [Bool.true_eq_false, if_false, hex, if_true, hg2, setInsert,
      if_neg hxe]
  have hlen1 : ((getRec st k).erase x).length = (getRec st k).length - 1 :=
    List.length_erase_of_mem hx
  have hpos : 0 < (getRec st k).length :=
    List.length_pos.mpr (List.ne_nil_of_mem hx)
  rw [hmove]
  refine ⟨rfl, ?_⟩
  intro k'
  by_cases hk' : k' = k
  · subst hk'
    refine ⟨?_, ?_, ?_⟩
    · rw [existsKey_update_self, hex]
    · simp only [SCard, existsKey_update_self, hex, getRec_update_self,
        Bool.true_eq_false, if_false, List.length_append]
      simp only [List.length_singleton]
      omega
    · intro v
      simp only [SIsMember, existsKey_update_self, hex, getRec_update_self,
        Bool.true_eq_false, if_false]
      rw [decide_eq_decide]
      by_cases hv : v = x
      · subst hv
        simp [hx]
      · simp only [List.mem_append, List.mem_singleton, hv, or_false]
        exact List.mem_erase_of_ne hv
  · have heq : lookupRec (updateRec (updateRec st k ((getRec st k).erase x)) k
        ((getRec st k).erase x ++ [x])) k' = lookupRec st k' := by
      rw [lookup_update_ne _ _ _ _ hk', lookup_update_ne _ _ _ _ hk']
    have hex' : existsKey (updateRec (updateRec st k ((getRec st k).erase x)) k
        ((getRec st k).erase x ++ [x])) k' = existsKey st k' :=
      congrArg Option.isSome heq
    have hget' : getRec (updateRec (updateRec st k ((getRec st k).erase x)) k
        ((getRec st k).erase x ++ [x])) k' = getRec st k' :=
      congrArg (fun o => o.getD []) heq
    refine ⟨hex', ?_, ?_⟩
    · simp only [SCard]
      rw [hex', hget']
    · intro v
      simp only [SIsMember]
      rw [hex', hget']

/-- Closed witness for C8 at a concrete store: key `s` holds `x` and the
self-move leaves the store observationally unchanged. -/
theorem claim_C8_witness :
    (SMove ([("s", ["x"])] : Store String) "s" "s" "x").1 = true
    ∧ ∀ k' : String,
        existsKey (SMove ([("s", ["x"])] : Store String) "s" "s" "x").2 k'
          = existsKey ([("s", ["x"])] : Store String) k'
        ∧ SCard (SMove ([("s", ["x"])] : Store String) "s" "s" "x").2 k'
          = SCard ([("s", ["x"])] : Store String) k'
        ∧ ∀ v : String,
            SIsMember (SMove ([("s", ["x"])] : Store String) "s" "s" "x").2 k' v
              = SIsMember ([("s", ["x"])] : Store String) k' v :=
  claim_C8 ([("s", ["x"])] : Store String) "s" "x" (by decide) (by decide)

/-- C1: the spec states that no public operation panics or aborts under
documented inputs and that every call returns a value normally.  The code
violates this: `set.list()` assigns through an index of a slice created
with length 0, a runtime panic for any non-empty set, and `SDiff` with a
single existing key delegates to it.  On the store where key `s1` holds
the single element `a`, `SDiff("s1")` panics (modelled as `none`) even
though the key exists. -/
theorem claim_C1 :
    SDiff ((SAdd ([] : Store String) "s1" ["a"]).2) ["s1"] = none ∧
    existsKey ((SAdd ([] : Store String) "s1" ["a"]).2) "s1" = true := by
  constructor
  · rfl
  · rfl

/-- C2: the spec states that when the set holds fewer than `count`
elements, `SPop` returns only that many elements, and the cardinality
drops by the number of returned elements.  The code instead returns a
slice of length `count` padded with Go's `nil`: on a store where key `s`
holds the single element `a`, `SPop("s", 2)` returns a length-2 slice
`[a, nil]` while the cardinality only drops by one (to 0). -/
theorem claim_C2 :
    (SPop ((SAdd ([] : Store String) "s" ["a"]).2) "s" 2).1 = [some "a", none] ∧
    ((SPop ((SAdd ([] : Store String) "s" ["a"]).2) "s" 2).1).length = 2 ∧
    SCard ((SPop ((SAdd ([] : Store String) "s" ["a"]).2) "s" 2).2) "s" = 0 := by
  refine ⟨rfl, rfl, rfl⟩

/-- C4: the claim states that `SUnionStore(dest, keys...)` returns the
full union size even when `dest` already overlaps the union.  The code
never reaches its return on a non-empty union: `SUnion` panics inside the
defective `set.list()`.  With `dest` holding `a` and `set1` holding
`a, b`, `SUnionStore("dest", "set1", "set2")` panics (modelled `none`)
instead of returning 2. -/
theorem claim_C4 :
    SUnionStore
      ((SAdd ((SAdd ([] : Store String) "dest" ["a"]).2) "set1" ["a", "b"]).2)
      "dest" ["set1", "set2"] = none := by
  rfl

/-- C6: the claim states that `SUnion` returns exactly the elements of
the existing listed keys' sets.  The code computes that union internally
but panics when enumerating it through the defective `set.list()`: on a
store where `set1` holds `a`, the accumulated union is `[a]`, yet
`SUnion("set1")` panics (modelled `none`) instead of returning it. -/
theorem claim_C6 :
    SUnion ((SAdd ([] : Store String) "set1" ["a"]).2) ["set1"] = none ∧
    sUnionMembers ((SAdd ([] : Store String) "set1" ["a"]).2) ["set1"] = ["a"] := by
  exact ⟨rfl, rfl⟩

/-- C10: the claim states that the store variants create the destination
key exactly when the computed result is non-empty.  For `SUnionStore` the
non-empty case never completes: with `set1` holding `a` and `dest` absent,
the union `[a]` is non-empty, yet the call panics in `set.list()`
(modelled `none`) and `dest` is never created. -/
theorem claim_C10 :
    SUnionStore ((SAdd ([] : Store String) "set1" ["a"]).2) "dest" ["set1"] = none ∧
    existsKey ((SAdd ([] : Store String) "set1" ["a"]).2) "dest" = false ∧
    sUnionMembers ((SAdd ([] : Store String) "set1" ["a"]).2) ["set1"] ≠ [] := by
  refine ⟨rfl, rfl, by decide⟩

theorem mem_setInsert (s : GoSet V) (x v : V) :
    v ∈ setInsert s x ↔ v ∈ s ∨ v = x := by
  unfold setInsert
  by_cases h : x ∈ s
  · simp only [if_pos h]
    constructor
    · exact Or.inl
    · rintro (hv | rfl)
      · exact hv
      · exact h
  · simp [if_neg h]

theorem nodup_setInsert (s : GoSet V) (x : V) (h : s.Nodup) :
    (setInsert s x).Nodup := by
  unfold setInsert
  by_cases hx : x ∈ s
  · simpa [hx]
  · simp [hx, List.nodup_append, h]

theorem mem_insertAll (s acc : GoSet V) (v : V) :
    v ∈ insertAll acc s ↔ v ∈ acc ∨ v ∈ s := by
  induction s generalizing acc with
  | nil => simp [insertAll]
  | cons m rest ih =>
    show v ∈ insertAll (setInsert acc m) rest ↔ _
    rw [ih, mem_setInsert]
    simp only [List.mem_cons]
    tauto

theorem nodup_insertAll (s acc : GoSet V) (h : acc.Nodup) :
    (insertAll acc s).Nodup := by
  induction s generalizing acc with
  | nil => exact h
  | cons m rest ih => exact ih _ (nodup_setInsert acc m h)

theorem excludeLoop_eq_none (st : Store V) (ks : List String) (k0 : String)
    (acc : GoSet V) :
    excludeLoop st ks k0 acc = none
      ↔ ∃ k ∈ ks, k ≠ k0 ∧ lookupRec st k = none := by
  induction ks generalizing acc with
  | nil => simp [excludeLoop]
  | cons k rest ih =>
    by_cases hk : k = k0
    · subst hk
      have hstep : excludeLoop st (k :: rest) k acc = excludeLoop st rest k acc := by
        rw [excludeLoop]
        simp
      rw [hstep, ih]
      constructor
      · rintro ⟨k', hk', hne, hl⟩
        exact ⟨k', List.mem_cons_of_mem _ hk', hne, hl⟩
      · rintro ⟨k', hk', hne, hl⟩
        rcases List.mem_cons.mp hk' with rfl | hk'
        · exact absurd rfl hne
        · exact ⟨k', hk', hne, hl⟩
    · rw [excludeLoop]
      simp only [if_neg hk]
      cases hl : lookupRec st k with
      | none =>
        simp only [true_iff]
        exact ⟨k, List.mem_cons_self k rest, hk, hl⟩
      | some s =>
        rw [ih]
        constructor
        · rintro ⟨k', hk', hne, hl'⟩
          exact ⟨k', List.mem_cons_of_mem _ hk', hne, hl'⟩
        · rintro ⟨k', hk', hne, hl'⟩
          rcases List.mem_cons.mp hk' with rfl | hk'
          · rw [hl] at hl'
            exact absurd hl' (by simp)
          · exact ⟨k', hk', hne, hl'⟩

theorem excludeLoop_eq_some (st : Store V) (ks : List String) (k0 : String)
    (acc : GoSet V) (h : ∀ k ∈ ks, k ≠ k0 → lookupRec st k ≠ none) :
    ∃ e, excludeLoop st ks k0 acc = some e ∧
      ∀ v : V, v ∈ e ↔ v ∈ acc ∨ ∃ k ∈ ks, k ≠ k0 ∧ v ∈ getRec st k := by
  induction ks generalizing acc with
  | nil => exact ⟨acc, rfl, by simp⟩
  | cons k rest ih =>
    by_cases hk : k = k0
    · subst hk
      have hstep : excludeLoop st (k :: rest) k acc = excludeLoop st rest k acc := by
        rw [excludeLoop]
        simp
      rw [hstep]
      obtain ⟨e, he, hmem⟩ :=
        ih acc (fun k' hk' => h k' (List.mem_cons_of_mem _ hk'))
      refine ⟨e, he, fun v => ?_⟩
      rw [hmem v]
      constructor
      · rintro (hv | ⟨k', hk', hne, hvk⟩)
        · exact Or.inl hv
        · exact Or.inr ⟨k', List.mem_cons_of_mem _ hk', hne, hvk⟩
      · rintro (hv | ⟨k', hk', hne, hvk⟩)
        · exact Or.inl hv
        · rcases List.mem_cons.mp hk' with rfl | hk'
          · exact absurd rfl hne
          · exact Or.inr ⟨k', hk', hne, hvk⟩
    · rw [excludeLoop]
      simp only [if_neg hk]
      cases hl : lookupRec st k with
      | none => exact absurd hl (h k (List.mem_cons_self k rest) hk)
      | some s =>
        obtain ⟨e, he, hmem⟩ :=
          ih (insertAll acc s) (fun k' hk' => h k' (List.mem_cons_of_mem _ hk'))
        refine ⟨e, he, fun v => ?_⟩
        rw [hmem v, mem_insertAll]
        have hg : getRec st k = s := getRec_eq_of_lookup st k s hl
        constructor
        · rintro ((hv | hv) | ⟨k', hk', hne, hvk⟩)
          · exact Or.inl hv
          · exact Or.inr ⟨k, List.mem_cons_self k rest, hk, hg ▸ hv⟩
          · exact Or.inr ⟨k', List.mem_cons_of_mem _ hk', hne, hvk⟩
        · rintro (hv | ⟨k', hk', hne, hvk⟩)
          · exact Or.inl (Or.inl hv)
          · rcases List.mem_cons.mp hk' with rfl | hk'
            · exact Or.inl (Or.inr (hg ▸ hvk))
            · exact Or.inr ⟨k', hk', hne, hvk⟩

/-- C3 amended: with at least two keys, later keys equal (as strings) to
the first key are skipped entirely by `SDiff` — neither existence-checked
nor subtracted.  The result is empty when a later key differing from the
first is absent; otherwise it holds exactly the elements of the first
key's set absent from every later key's set that differs from the first
key, each element once. -/
theorem claim_C3_amended (st : Store V) (k0 k1 : String) (rest : List String)
    (hWF : WFStore st) :
    ∃ r, SDiff st (k0 :: k1 :: rest) = some r ∧ r.Nodup ∧
      ∀ v : V, v ∈ r ↔ v ∈ getRec st k0 ∧
        ∀ k ∈ k1 :: rest, k ≠ k0 → existsKey st k = true ∧ v ∉ getRec st k := by
  by_cases hmiss : ∃ k ∈ k1 :: rest, k ≠ k0 ∧ lookupRec st k = none
  · have hfull : ∃ k ∈ k0 :: k1 :: rest, k ≠ k0 ∧ lookupRec st k = none := by
      obtain ⟨k, hkmem, hne, hl⟩ := hmiss
      exact ⟨k, List.mem_cons_of_mem _ hkmem, hne, hl⟩
    have hnone : excludeLoop st (k0 :: k1 :: rest) k0 [] = none :=
      (excludeLoop_eq_none st _ k0 []).mpr hfull
    refine ⟨[], ?_, List.nodup_nil, ?_⟩
    · simp only [SDiff, hnone]
    · intro v
      simp only [List.not_mem_nil, false_iff]
      obtain ⟨k, hkmem, hne, hl⟩ := hmiss
      rintro ⟨-, hall⟩
      have := (hall k hkmem hne).1
      rw [existsKey_true_iff] at this
      exact this hl
  · push_neg at hmiss
    have hfull : ∀ k ∈ k0 :: k1 :: rest, k ≠ k0 → lookupRec st k ≠ none := by
      intro k hkmem hne
      rcases List.mem_cons.mp hkmem with rfl | hkmem
      · exact absurd rfl hne
      · exact hmiss k hkmem hne
    obtain ⟨e, he, hmem⟩ := excludeLoop_eq_some st (k0 :: k1 :: rest) k0 [] hfull
    refine ⟨(getRec st k0).filter (fun item => decide (item ∉ e)), ?_, ?_, ?_⟩
    · simp only [SDiff, he]
    · exact List.Nodup.filter _ (getRec_nodup st k0 hWF)
    · intro v
      rw [List.mem_filter]
      simp only [decide_eq_true_eq]
      constructor
      · rintro ⟨hv, hne⟩
        rw [hmem v] at hne
        push_neg at hne
        refine ⟨hv, fun k hk hkne => ?_⟩
        refine ⟨(existsKey_true_iff st k).mpr (hmiss k hk hkne), ?_⟩
        intro hvk
        exact (hne.2 k (List.mem_cons_of_mem _ hk) hkne) hvk
      · rintro ⟨hv, hall⟩
        refine ⟨hv, ?_⟩
        rw [hmem v]
        rintro (hfalse | ⟨k, hk, hkne, hvk⟩)
        · exact List.not_mem_nil v hfalse
        · rcases List.mem_cons.mp hk with rfl | hk
          · exact absurd rfl hkne
          · exact (hall k hk hkne).2 hvk

/-- Closed witness for C3 amended: on a store where `a` holds `x, y` and
`b` holds `x`, `SDiff("a", "b")` returns exactly the element `y`. -/
theorem claim_C3_amended_witness :
    ∃ r, SDiff ([("a", ["x", "y"]), ("b", ["x"])] : Store String) ["a", "b"]
        = some r ∧ r.Nodup ∧
      ∀ v : String,
        v ∈ r ↔ v ∈ getRec ([("a", ["x", "y"]), ("b", ["x"])] : Store String) "a" ∧
          ∀ k ∈ ["b"], k ≠ "a" →
            existsKey ([("a", ["x", "y"]), ("b", ["x"])] : Store String) k = true ∧
            v ∉ getRec ([("a", ["x", "y"]), ("b", ["x"])] : Store String) k :=
  claim_C3_amended ([("a", ["x", "y"]), ("b", ["x"])] : Store String) "a" "b" []
    (by decide)

theorem smallestLoop_eq_none (st : Store V) (ks : List String)
    (best : Option (String × GoSet V)) :
    smallestLoop st ks best = none ↔ ∃ k ∈ ks, lookupRec st k = none := by
  induction ks generalizing best with
  | nil => simp [smallestLoop]
  | cons k rest ih =>
    cases hl : lookupRec st k with
    | none =>
      have hred : smallestLoop st (k :: rest) best = none := by
        rw [smallestLoop, hl]
      rw [hred]
      constructor
      · intro _
        exact ⟨k, List.mem_cons_self k rest, hl⟩
      · intro _
        rfl
    | some s =>
      have hcons : (∃ k' ∈ rest, lookupRec st k' = none)
          ↔ ∃ k' ∈ k :: rest, lookupRec st k' = none := by
        constructor
        · rintro ⟨k', hk', hl'⟩
          exact ⟨k', List.mem_cons_of_mem _ hk', hl'⟩
        · rintro ⟨k', hk', hl'⟩
          rcases List.mem_cons.mp hk' with rfl | hk'
          · rw [hl] at hl'
            exact absurd hl' (by simp)
          · exact ⟨k', hk', hl'⟩
      cases best with
      | none =>
        have hred : smallestLoop st (k :: rest) none
            = smallestLoop st rest (some (k, s)) := by
          rw [smallestLoop, hl]
        rw [hred, ih, hcons]
      | some p =>
        obtain ⟨bk, bs⟩ := p
        have hred : smallestLoop st (k :: rest) (some (bk, bs))
            = if s.length < bs.length then smallestLoop st rest (some (k, s))
              else smallestLoop st rest (some (bk, bs)) := by
          rw [smallestLoop, hl]
        rw [hred]
        by_cases hlt : s.length < bs.length
        · rw [if_pos hlt, ih, hcons]
        · rw [if_neg hlt, ih, hcons]

theorem smallestLoop_some_aux (st : Store V) (ks : List String) :
    ∀ (bk : String) (bs : GoSet V), (∀ k ∈ ks, lookupRec st k ≠ none) →
    lookupRec st bk = some bs →
    ∃ bk' bs', smallestLoop st ks (some (bk, bs)) = some (some (bk', bs')) ∧
      lookupRec st bk' = some bs' ∧ (bk' = bk ∨ bk' ∈ ks) := by
  induction ks with
  | nil =>
    intro bk bs _ hbk
    exact ⟨bk, bs, rfl, hbk, Or.inl rfl⟩
  | cons k rest ih =>
    intro bk bs h hbk
    cases hl : lookupRec st k with
    | none => exact absurd hl (h k (List.mem_cons_self k rest))
    | some s =>
      have hred : smallestLoop st (k :: rest) (some (bk, bs))
          = if s.length < bs.length then smallestLoop st rest (some (k, s))
            else smallestLoop st rest (some (bk, bs)) := by
        rw [smallestLoop, hl]
      rw [hred]
      by_cases hlt : s.length < bs.length
      · rw [if_pos hlt]
        obtain ⟨bk', bs', heq, hlk, hor⟩ :=
          ih k s (fun k' hk' => h k' (List.mem_cons_of_mem _ hk')) hl
        refine ⟨bk', bs', heq, hlk, ?_⟩
        rcases hor with rfl | h'
        · exact Or.inr (List.mem_cons_self _ _)
        · exact Or.inr (List.mem_cons_of_mem _ h')
      · rw [if_neg hlt]
        obtain ⟨bk', bs', heq, hlk, hor⟩ :=
          ih bk bs (fun k' hk' => h k' (List.mem_cons_of_mem _ hk')) hbk
        refine ⟨bk', bs', heq, hlk, ?_⟩
        rcases hor with rfl | h'
        · exact Or.inl rfl
        · exact Or.inr (List.mem_cons_of_mem _ h')

theorem interFilterLoop_some (st : Store V) (smKey : String) (ks : List String) :
    ∀ (inAll : GoSet V), (∀ k ∈ ks, k ≠ smKey → lookupRec st k ≠ none) →
    ∃ r, interFilterLoop st smKey ks inAll = some r ∧
      (inAll.Nodup → r.Nodup) ∧
      ∀ v : V, v ∈ r ↔ v ∈ inAll ∧ ∀ k ∈ ks, k ≠ smKey → v ∈ getRec st k := by
  induction ks with
  | nil =>
    intro inAll _
    exact ⟨inAll, rfl, id, by simp⟩
  | cons k rest ih =>
    intro inAll h
    by_cases hk : k = smKey
    · subst hk
      have hstep : interFilterLoop st k (k :: rest) inAll
          = interFilterLoop st k rest inAll := by
        rw [interFilterLoop]
        simp
      rw [hstep]
      obtain ⟨r, hr, hnd, hmem⟩ := ih inAll (fun k' hk' => h k' (List.mem_cons_of_mem _ hk'))
      refine ⟨r, hr, hnd, fun v => ?_⟩
      rw [hmem v]
      constructor
      · rintro ⟨hv, hall⟩
        refine ⟨hv, fun k' hk' hne => ?_⟩
        rcases List.mem_cons.mp hk' with rfl | hk'
        · exact absurd rfl hne
        · exact hall k' hk' hne
      · rintro ⟨hv, hall⟩
        exact ⟨hv, fun k' hk' hne => hall k' (List.mem_cons_of_mem _ hk') hne⟩
    · rw [interFilterLoop]
      simp only [if_neg hk]
      cases hl : lookupRec st k with
      | none => exact absurd hl (h k (List.mem_cons_self k rest) hk)
      | some nextSet =>
        obtain ⟨r, hr, hnd, hmem⟩ :=
          ih (inAll.filter (fun item => decide (item ∈ nextSet)))
            (fun k' hk' => h k' (List.mem_cons_of_mem _ hk'))
        refine ⟨r, hr, fun hinAll => hnd (List.Nodup.filter _ hinAll), fun v => ?_⟩
        rw [hmem v, List.mem_filter]
        simp only [decide_eq_true_eq]
        have hg : getRec st k = nextSet := getRec_eq_of_lookup st k nextSet hl
        constructor
        · rintro ⟨⟨hv, hvn⟩, hall⟩
          refine ⟨hv, fun k' hk' hne => ?_⟩
          rcases List.mem_cons.mp hk' with rfl | hk'
          · exact hg ▸ hvn
          · exact hall k' hk' hne
        · rintro ⟨hv, hall⟩
          exact ⟨⟨hv, hg ▸ hall k (List.mem_cons_self k rest) hk⟩,
            fun k' hk' hne => hall k' (List.mem_cons_of_mem _ hk') hne⟩

/-- C5: with at least two keys, `SInter` returns the empty sequence when
any listed key is absent from the store; otherwise the smallest-set-scan
implementation returns exactly the elements present in every listed key's
set — the naive intersection — each element appearing once. -/
theorem claim_C5 (st : Store V) (kh k1 : String) (kt : List String)
    (hWF : WFStore st) :
    ∃ r, SInter st (kh :: k1 :: kt) = some r ∧ r.Nodup ∧
      ((∃ k ∈ kh :: k1 :: kt, existsKey st k = false) → r = []) ∧
      ((∀ k ∈ kh :: k1 :: kt, existsKey st k = true) →
        ∀ v : V, v ∈ r ↔ naiveInterMem st (kh :: k1 :: kt) v) := by
  by_cases hmiss : ∃ k ∈ kh :: k1 :: kt, lookupRec st k = none
  · have hnone : smallestLoop st (kh :: k1 :: kt) none = none :=
      (smallestLoop_eq_none st _ none).mpr hmiss
    refine ⟨[], ?_, List.nodup_nil, fun _ => rfl, ?_⟩
    · simp only [SInter, hnone]
    · intro hall v
      obtain ⟨k, hk, hl⟩ := hmiss
      have := hall k hk
      rw [existsKey_true_iff] at this
      exact absurd hl this
  · push_neg at hmiss
    have hlh : lookupRec st kh ≠ none := hmiss kh (List.mem_cons_self _ _)
    cases hlkh : lookupRec st kh with
    | none => exact absurd hlkh hlh
    | some s0 =>
      have hstep : smallestLoop st (kh :: k1 :: kt) none
          = smallestLoop st (k1 :: kt) (some (kh, s0)) := by
        rw [smallestLoop, hlkh]
      obtain ⟨bk, bs, hsl, hlbk, hor⟩ := smallestLoop_some_aux st (k1 :: kt) kh s0
        (fun k' hk' => hmiss k' (List.mem_cons_of_mem _ hk')) hlkh
      have hbkmem : bk ∈ kh :: k1 :: kt := by
        rcases hor with rfl | h'
        · exact List.mem_cons_self _ _
        · exact List.mem_cons_of_mem _ h'
      obtain ⟨r, hfl, hnd, hmem⟩ := interFilterLoop_some st bk (kh :: k1 :: kt)
        (insertAll [] bs) (fun k' hk' _ => hmiss k' hk')
      refine ⟨r, ?_, hnd (nodup_insertAll bs [] List.nodup_nil), fun hex => ?_,
        fun _ v => ?_⟩
      · simp only [SInter, hstep, hsl, hfl]
      · obtain ⟨k, hk, hfalse⟩ := hex
        rw [existsKey_false_iff] at hfalse
        exact absurd hfalse (hmiss k hk)
      · rw [hmem v, mem_insertAll]
        simp only [List.not_mem_nil, false_or]
        have hgbk : getRec st bk = bs := getRec_eq_of_lookup st bk bs hlbk
        unfold naiveInterMem
        constructor
        · rintro ⟨hv, hall⟩
          intro k hk
          by_cases hkbk : k = bk
          · subst hkbk
            exact hgbk ▸ hv
          · exact hall k hk hkbk
        · intro hall
          exact ⟨hgbk ▸ hall bk hbkmem, fun k hk _ => hall k hk⟩

/-- Closed witness for C5: on a store where `set1` holds `a, b, c, d` and
`set2` holds `c, d, e`, `SInter("set1", "set2")` returns exactly `{c, d}`. -/
theorem claim_C5_witness :
    ∃ r, SInter ([("set1", ["a", "b", "c", "d"]), ("set2", ["c", "d", "e"])] :
        Store String) ["set1", "set2"] = some r ∧ r.Nodup ∧
      ((∃ k ∈ ["set1", "set2"],
          existsKey ([("set1", ["a", "b", "c", "d"]), ("set2", ["c", "d", "e"])] :
            Store String) k = false) → r = []) ∧
      ((∀ k ∈ ["set1", "set2"],
          existsKey ([("set1", ["a", "b", "c", "d"]), ("set2", ["c", "d", "e"])] :
            Store String) k = true) →
        ∀ v : String, v ∈ r ↔
          naiveInterMem ([("set1", ["a", "b", "c", "d"]), ("set2", ["c", "d", "e"])] :
            Store String) ["set1", "set2"] v) :=
  claim_C5 ([("set1", ["a", "b", "c", "d"]), ("set2", ["c", "d", "e"])] :
    Store String) "set1" "set2" [] (by decide)

/-- C3 counterexample: the claim states that `SDiff` returns the elements
of the first key's set absent from the union of all other (later) keys'
sets, also when a later key is the same string as the first key.  On the
store where key `a` holds `x`, the claim demands `SDiff("a", "a")` be
empty (`x` is in the later key's set), but the code skips later keys
equal to the first key and returns `[x]`. -/
theorem claim_C3_cex :
    SDiff ((SAdd ([] : Store String) "a" ["x"]).2) ["a", "a"] = some ["x"] ∧
    ¬ sdiffClaimMem ((SAdd ([] : Store String) "a" ["x"]).2) ["a", "a"] "x" := by
  exact ⟨rfl, by decide⟩

end Jellyset
